import Mathlib

/-!
Shallow embedding of the firmware core shared by
`uart_command_logger.X/main.c` and
`UART-based Circular Buffer system with interrupts/uart_with_ring_buffer.X/main.c`.

Bytes are modelled as `Nat` values standing for 8-bit patterns (0..255);
C strings (`char[]` payloads) are byte lists; machine integers are `Nat`
with explicit `% 2^w` where the C type can wrap (`uint8_t` ring indices
are kept reduced modulo the buffer size by the code itself; the
`uint16_t` EEPROM cursor is reduced modulo 65536 at each update).
-/

/-- BUFFER_SIZE from the source: capacity of the receive ring. -/
def BUFFER_SIZE : Nat := 64

/-- MAX_CMD_LEN from the source: size of the fixed payload buffer. -/
def MAX_CMD_LEN : Nat := 32

/-- MAX_LOGS from the source: record count read by `load_logs_from_eeprom`. -/
def MAX_LOGS : Nat := 10

/-- TICK_MS from the source: scheduler tick period in milliseconds. -/
def TICK_MS : Nat := 10

/-- State of the interrupt-fed circular receive buffer:
`rx_buffer` (a byte array modelled as a function), `head` (next write
slot, mutated only by the ISR) and `tail` (next read slot, mutated only
by the consumer). -/
structure RingState where
  buf : Nat → Nat
  head : Nat
  tail : Nat

/-- Well-formedness of the ring indices: both are `uint8_t` values kept
below `BUFFER_SIZE` by the code's `% BUFFER_SIZE` updates. -/
def wfRing (s : RingState) : Prop := s.head < 64 ∧ s.tail < 64

/-- `buffer_is_empty` / `is_buffer_empty` from the source: `head == tail`. -/
def buffer_is_empty (s : RingState) : Bool := s.head == s.tail

/-- `buffer_is_full` / `is_buffer_full` from the source:
`((head + 1) % BUFFER_SIZE) == tail`. -/
def buffer_is_full (s : RingState) : Bool := (s.head + 1) % 64 == s.tail

/-- `buffer_read` / `uart_read` from the source: on an empty buffer it
returns `-1` without touching the indices (255 is the 8-bit pattern of
the `char` value `-1`); otherwise it returns `rx_buffer[tail]` and
advances `tail` modulo the capacity. -/
def buffer_read (s : RingState) : Nat × RingState :=
  if s.head = s.tail then (255, s)
  else (s.buf s.tail, { s with tail := (s.tail + 1) % 64 })

/-- Body of `ISR(USART_RX_vect)` from the source: compute
`next = (head + 1) % BUFFER_SIZE`; if `next != tail` store the byte at
`head` and advance `head`, otherwise drop the byte. -/
def isrPush (b : Nat) (s : RingState) : RingState :=
  let nxt := (s.head + 1) % 64
  if nxt = s.tail then s
  else { s with buf := fun a => if a = s.head then b else s.buf a, head := nxt }

/-- The consumer pattern of the main loop: read one byte only after
checking `!buffer_is_empty()`, signalling `none` otherwise. -/
def tryRead (s : RingState) : Option Nat × RingState :=
  if buffer_is_empty s then (none, s)
  else
    let r := buffer_read s
    (some r.1, r.2)

/-- Number of unread bytes held by the ring (distance from `tail` to
`head` modulo the capacity). -/
def ringSize (s : RingState) : Nat := (s.head + 64 - s.tail) % 64

/-- Abstraction of the ring state: the list of unread bytes, oldest
first, as laid out from `tail` in the circular array. -/
def absRing (s : RingState) : List Nat :=
  (List.range (ringSize s)).map (fun i => s.buf ((s.tail + i) % 64))

/-- The startup ring: zero-initialised array, `head = tail = 0`. -/
def ring0 : RingState := ⟨fun _ => 0, 0, 0⟩

/-- One interleaved producer/consumer operation on the ring. -/
inductive RingOp where
  | push (b : Nat)
  | pop
deriving DecidableEq

/-- Run a sequence of ring operations, collecting the bytes returned by
the (guarded) reads. -/
def runOps : List RingOp → RingState → RingState × List Nat
  | [], s => (s, [])
  | RingOp.push b :: ops, s => runOps ops (isrPush b s)
  | RingOp.pop :: ops, s =>
    match tryRead s with
    | (none, s1) => runOps ops s1
    | (some c, s1) =>
      let r := runOps ops s1
      (r.1, c :: r.2)

/-- The bytes pushed by a sequence of operations, in order. -/
def pushedOf : List RingOp → List Nat
  | [] => []
  | RingOp.push b :: ops => b :: pushedOf ops
  | RingOp.pop :: ops => pushedOf ops

/-- The number of pushes in a sequence of operations. -/
def numPushes : List RingOp → Nat
  | [] => 0
  | RingOp.push _ :: ops => numPushes ops + 1
  | RingOp.pop :: ops => numPushes ops

/-- `struct TaskNode` from the source, minus the intrusive `next` link
(the chain itself is the list structure): a fixed 32-byte payload
buffer, a `uint16_t` tick countdown and a `uint8_t` priority. -/
structure TaskEntry where
  data : List Nat
  delay_ticks : Nat
  priority : Nat
deriving DecidableEq

/-- Effect of `strncpy(dst, msg, MAX_CMD_LEN - 1)` followed by
`dst[MAX_CMD_LEN - 1] = 0` on the 32-byte payload buffer: at most 31
bytes of the message, null-padded to exactly 32 bytes. -/
def strncpyData (msg : List Nat) : List Nat :=
  msg.take 31 ++ List.replicate (32 - min msg.length 31) 0

/-- The node built by `add_log` before splicing: truncated payload,
`delay_ticks = delay_ms / TICK_MS`, and the given priority. -/
def mkNode (msg : List Nat) (delay_ms priority : Nat) : TaskEntry :=
  ⟨strncpyData msg, delay_ms / TICK_MS, priority⟩

/-- The walk of `add_log` starting at a node `cur` already known to have
priority ≤ the new priority: advance while the next node exists and its
priority is ≤ the new one, then splice the new node in after. -/
def insertAfter (e : TaskEntry) : TaskEntry → List TaskEntry → List TaskEntry
  | cur, [] => [cur, e]
  | cur, nxt :: rest =>
    if nxt.priority ≤ e.priority then cur :: insertAfter e nxt rest
    else cur :: e :: nxt :: rest

/-- `add_log` from the source: build the node; if the chain is empty or
the new priority is strictly below the head's, push at the front,
otherwise walk and splice (allocation is assumed to succeed; on failure
the C function silently no-ops). -/
def add_log (q : List TaskEntry) (msg : List Nat) (delay_ms priority : Nat) :
    List TaskEntry :=
  let e := mkNode msg delay_ms priority
  match q with
  | [] => [e]
  | h :: t => if priority < h.priority then e :: h :: t else insertAfter e h t

/-- A whole insertion sequence applied to the initially empty queue;
each item is (message bytes, delay_ms, priority), in insertion order. -/
def buildQueue (items : List (List Nat × Nat × Nat)) : List TaskEntry :=
  items.foldl (fun q it => add_log q it.1 it.2.1 it.2.2) []

/-- The listing produced by `print_log`, front to back: one
`(priority, payload)` line per node (the printed counter is the 1-based
position in this list). -/
def renderLog (q : List TaskEntry) : List (Nat × List Nat) :=
  q.map (fun e => (e.priority, e.data))

/-- `execute_tasks` from the source, one scheduler tick: walk the chain;
a node with `delay_ticks > 0` is decremented in place, a node with
`delay_ticks == 0` is executed (its payload is emitted, in queue order)
and unlinked. Returns the remaining queue and the emitted payloads. -/
def execute_tasks : List TaskEntry → List TaskEntry × List (List Nat)
  | [] => ([], [])
  | e :: rest =>
    if 0 < e.delay_ticks then
      let r := execute_tasks rest
      ({ e with delay_ticks := e.delay_ticks - 1 } :: r.1, r.2)
    else
      let r := execute_tasks rest
      (r.1, e.data :: r.2)

/-- `n` consecutive scheduler ticks: the queue after `n` calls of
`execute_tasks` and all payloads emitted along the way, in order. -/
def iterTicks : Nat → List TaskEntry → List TaskEntry × List (List Nat)
  | 0, q => (q, [])
  | n + 1, q =>
    let r := execute_tasks q
    let r2 := iterTicks n r.1
    (r2.1, r.2 ++ r2.2)

/-- State of the EEPROM: a flat byte-addressed memory and the global
`uint16_t` write cursor `ee_address`. -/
structure EEState where
  mem : Nat → Nat
  addr : Nat

/-- `sizeof(struct TaskNode)` on the AVR target: 32 payload bytes +
2 bytes `delay_ticks` + 1 byte `priority` + 2 bytes `next` pointer,
with no padding (everything is 1-byte aligned on AVR). -/
def recordSize : Nat := 37

/-- Write a block of bytes at consecutive addresses starting at `a`
(`eeprom_write_block`). -/
def writeBytes (m : Nat → Nat) (a : Nat) : List Nat → (Nat → Nat)
  | [] => m
  | b :: bs => writeBytes (fun x => if x = a then b % 256 else m x) (a + 1) bs

/-- The raw bytes `eeprom_write_block((const void*)temp, ..,
sizeof(TaskNode))` emits for one node: the whole in-memory struct,
little-endian — 32 payload bytes, 2 bytes of `delay_ticks`, 1 byte of
`priority`, and the 2 raw bytes of the `next` pointer (`ptr`). -/
def serializeRecord (e : TaskEntry) (ptr : Nat) : List Nat :=
  e.data ++ [e.delay_ticks % 256, e.delay_ticks / 256 % 256,
             e.priority % 256, ptr % 256, ptr / 256 % 256]

/-- The record `eeprom_read_block` deposits into a fresh node at byte
address `a` (the 2 trailing `next`-pointer bytes are also read in C but
immediately overwritten by `new_node->next = log_head`, so they do not
survive into the queue). -/
def deserializeRecord (m : Nat → Nat) (a : Nat) : TaskEntry :=
  ⟨(List.range 32).map (fun i => m (a + i)),
   m (a + 32) + 256 * m (a + 33),
   m (a + 34)⟩

/-- The byte stream a front-to-back walk of the queue serialises,
`ptrFn k` supplying the raw `next`-pointer value stored in the `k`-th
node written. -/
def serialFrom (ptrFn : Nat → Nat) : Nat → List TaskEntry → List Nat
  | _, [] => []
  | k, e :: rest => serializeRecord e (ptrFn k) ++ serialFrom ptrFn (k + 1) rest

/-- The loop body of `save_logs_to_eeprom`: write the node at the
current cursor, advance the cursor by `sizeof(TaskNode)` (a `uint16_t`
addition), continue with the rest of the chain. -/
def saveGo (ptrFn : Nat → Nat) : Nat → List TaskEntry → EEState → EEState
  | _, [], st => st
  | k, e :: rest, st =>
    saveGo ptrFn (k + 1) rest
      ⟨writeBytes st.mem st.addr (serializeRecord e (ptrFn k)),
       (st.addr + recordSize) % 65536⟩

/-- `save_logs_to_eeprom` from the source: walk the queue front to back,
writing each whole node at the current `ee_address` and advancing it by
`sizeof(TaskNode)`. The cursor is NOT reset to 0 first. -/
def saveLogs (q : List TaskEntry) (ptrFn : Nat → Nat) (st : EEState) : EEState :=
  saveGo ptrFn 0 q st

/-- The loop of `load_logs_from_eeprom`: read `n` records at the cursor,
advancing it by `sizeof(TaskNode)` each time and prepending each fresh
node to the current queue (allocation assumed to succeed). -/
def loadGo : Nat → EEState → List TaskEntry → List TaskEntry × EEState
  | 0, st, q => (q, st)
  | n + 1, st, q =>
    loadGo n ⟨st.mem, (st.addr + recordSize) % 65536⟩
      (deserializeRecord st.mem st.addr :: q)

/-- `load_logs_from_eeprom` from the source: reset `ee_address` to 0,
then read exactly `MAX_LOGS` records, prepending each to the current
in-memory queue (which is not cleared first). -/
def loadLogs (st : EEState) (q : List TaskEntry) : List TaskEntry × EEState :=
  loadGo MAX_LOGS ⟨st.mem, 0⟩ q

/-- A `TaskEntry` that an actual C `TaskNode` can represent: a full
32-byte payload buffer of bytes, a `uint16_t` countdown and a `uint8_t`
priority. -/
def wfEntry (e : TaskEntry) : Prop :=
  e.data.length = 32 ∧ (∀ b ∈ e.data, b < 256) ∧
  e.delay_ticks < 65536 ∧ e.priority < 256

instance (e : TaskEntry) : Decidable (wfEntry e) := by
  unfold wfEntry; infer_instance

/-! ### Ring buffer lemmas -/

/-- The ring state after a successful ISR store, as one definition so
that proofs can name it. -/
def pushedState (b : Nat) (s : RingState) : RingState :=
  { s with buf := fun a => if a = s.head then b else s.buf a,
           head := (s.head + 1) % 64 }

/-- The ring state after a successful read. -/
def poppedState (s : RingState) : RingState :=
  { s with tail := (s.tail + 1) % 64 }

theorem absRing_length (s : RingState) : (absRing s).length = ringSize s := by
  simp [absRing]

theorem absRing_nil_iff (s : RingState) (hw : wfRing s) :
    absRing s = [] ↔ s.head = s.tail := by
  obtain ⟨h1, h2⟩ := hw
  rw [absRing]
  simp only [List.map_eq_nil_iff, List.range_eq_nil]
  unfold ringSize
  omega

theorem isrPush_full (s : RingState) (b : Nat) (hf : (s.head + 1) % 64 = s.tail) :
    isrPush b s = s := by
  simp [isrPush, hf]

theorem isrPush_not_full (s : RingState) (b : Nat)
    (hnf : (s.head + 1) % 64 ≠ s.tail) : isrPush b s = pushedState b s := by
  simp [isrPush, pushedState, hnf]

theorem buffer_read_nonempty (s : RingState) (hne : s.head ≠ s.tail) :
    buffer_read s = (s.buf s.tail, poppedState s) := by
  simp [buffer_read, poppedState, hne]

theorem absRing_push (s : RingState) (b : Nat) (hw : wfRing s)
    (hlt : ringSize s < 63) :
    absRing (isrPush b s) = absRing s ++ [b] ∧ wfRing (isrPush b s) := by
  obtain ⟨h1, h2⟩ := hw
  have hnf : (s.head + 1) % 64 ≠ s.tail := by
    unfold ringSize at hlt; omega
  rw [isrPush_not_full s b hnf]
  have hsz : ringSize (pushedState b s) = ringSize s + 1 := by
    show ((s.head + 1) % 64 + 64 - s.tail) % 64 = (s.head + 64 - s.tail) % 64 + 1
    unfold ringSize at hlt
    omega
  refine ⟨?_, ⟨?_, ?_⟩⟩
  · apply List.ext_getElem
    · simp [absRing, hsz]
    · intro i hi1 hi2
      simp only [absRing, hsz, List.getElem_map, List.getElem_range]
      by_cases hi : i < ringSize s
      · rw [List.getElem_append_left (by simpa [absRing] using hi)]
        simp only [List.getElem_map, List.getElem_range]
        have hdiff : (s.tail + i) % 64 ≠ s.head := by
          unfold ringSize at hi hlt; omega
        show (pushedState b s).buf (((pushedState b s).tail + i) % 64) =
          s.buf ((s.tail + i) % 64)
        simp [pushedState, hdiff]
      · have hieq : i = ringSize s := by
          simp only [absRing, List.length_map, List.length_range, hsz] at hi1
          omega
        subst hieq
        rw [List.getElem_append_right (by simp [absRing])]
        have hhd : (s.tail + ringSize s) % 64 = s.head := by
          unfold ringSize; omega
        simp [pushedState, hhd, absRing]
  · show (s.head + 1) % 64 < 64
    omega
  · show s.tail < 64
    omega

theorem absRing_pop (s : RingState) (hw : wfRing s) (hne : s.head ≠ s.tail) :
    absRing s = s.buf s.tail :: absRing (poppedState s) ∧
    wfRing (poppedState s) := by
  obtain ⟨h1, h2⟩ := hw
  refine ⟨?_, ⟨by show s.head < 64; omega, by show (s.tail + 1) % 64 < 64; omega⟩⟩
  have hsz : ringSize (poppedState s) = ringSize s - 1 := by
    show (s.head + 64 - (s.tail + 1) % 64) % 64 = (s.head + 64 - s.tail) % 64 - 1
    omega
  have hpos : 0 < ringSize s := by unfold ringSize; omega
  apply List.ext_getElem
  · simp [absRing, hsz]; omega
  · intro i hi1 hi2
    cases i with
    | zero =>
      simp only [absRing, List.getElem_map, List.getElem_range, List.getElem_cons_zero]
      have hz : (s.tail + 0) % 64 = s.tail := by omega
      rw [hz]
    | succ j =>
      simp only [absRing, List.getElem_map, List.getElem_range, List.getElem_cons_succ]
      show s.buf ((s.tail + (j + 1)) % 64) =
        (poppedState s).buf (((poppedState s).tail + j) % 64)
      have hidx : (s.tail + (j + 1)) % 64 = ((s.tail + 1) % 64 + j) % 64 := by omega
      simp only [poppedState]
      rw [hidx]

theorem numPushes_append (p q : List RingOp) :
    numPushes (p ++ q) = numPushes p + numPushes q := by
  induction p with
  | nil => simp [numPushes]
  | cons op ops ih =>
    cases op with
    | push b =>
      show numPushes (RingOp.push b :: (ops ++ q)) = _
      simp only [numPushes, ih]
      omega
    | pop =>
      show numPushes (RingOp.pop :: (ops ++ q)) = _
      simp only [numPushes, ih]

theorem runOps_spec (ops : List RingOp) :
    ∀ s : RingState, wfRing s → ringSize s + numPushes ops ≤ 63 →
    wfRing (runOps ops s).1 ∧
    absRing s ++ pushedOf ops = (runOps ops s).2 ++ absRing (runOps ops s).1 := by
  induction ops with
  | nil => intro s hw _; simpa [runOps, pushedOf] using hw
  | cons op ops ih =>
    intro s hw hb
    cases op with
    | push b =>
      have hcnt : numPushes (RingOp.push b :: ops) = numPushes ops + 1 := rfl
      have hlt : ringSize s < 63 := by omega
      obtain ⟨habs, hwf⟩ := absRing_push s b hw hlt
      have hsz' : ringSize (isrPush b s) = ringSize s + 1 := by
        rw [← absRing_length, habs]
        simp [absRing_length]
      obtain ⟨ihwf, iheq⟩ := ih (isrPush b s) hwf (by omega)
      refine ⟨by simpa [runOps] using ihwf, ?_⟩
      show absRing s ++ (b :: pushedOf ops) =
        (runOps ops (isrPush b s)).2 ++ absRing (runOps ops (isrPush b s)).1
      rw [← iheq, habs]
      simp
    | pop =>
      have hcnt : numPushes (RingOp.pop :: ops) = numPushes ops := rfl
      by_cases he : s.head = s.tail
      · have htry : tryRead s = (none, s) := by
          simp [tryRead, buffer_is_empty, he]
        obtain ⟨ihwf, iheq⟩ := ih s hw (by omega)
        have hrun : runOps (RingOp.pop :: ops) s = runOps ops s := by
          simp [runOps, htry]
        rw [hrun]
        exact ⟨ihwf, by simpa [pushedOf] using iheq⟩
      · obtain ⟨habs, hwf'⟩ := absRing_pop s hw he
        have htry : tryRead s = (some (s.buf s.tail), poppedState s) := by
          simp [tryRead, buffer_is_empty, he, buffer_read_nonempty s he]
        have hsz' : ringSize (poppedState s) ≤ ringSize s := by
          have hlen := congrArg List.length habs
          simp only [absRing_length, List.length_cons] at hlen
          omega
        obtain ⟨ihwf, iheq⟩ := ih (poppedState s) hwf' (by omega)
        have hrun : runOps (RingOp.pop :: ops) s =
            ((runOps ops (poppedState s)).1,
             s.buf s.tail :: (runOps ops (poppedState s)).2) := by
          simp [runOps, htry]
        rw [hrun]
        refine ⟨ihwf, ?_⟩
        show absRing s ++ pushedOf ops =
          (s.buf s.tail :: (runOps ops (poppedState s)).2) ++
            absRing (runOps ops (poppedState s)).1
        rw [habs]
        simp only [List.cons_append]
        exact congrArg _ iheq

theorem buffer_is_empty_iff (s : RingState) :
    buffer_is_empty s = true ↔ s.head = s.tail := by
  simp [buffer_is_empty]

theorem buffer_is_full_iff (s : RingState) :
    buffer_is_full s = true ↔ (s.head + 1) % 64 = s.tail := by
  simp [buffer_is_full]

theorem full_iff_size (s : RingState) (hw : wfRing s) :
    buffer_is_full s = true ↔ ringSize s = 63 := by
  obtain ⟨h1, h2⟩ := hw
  rw [buffer_is_full_iff]
  unfold ringSize
  omega

/-- A concrete full ring used to witness the overflow claim: the array
holds 7 everywhere, `head = 63`, `tail = 0`, so `(head+1) % 64 = tail`. -/
def fullRing : RingState := ⟨fun _ => 7, 63, 0⟩

/-- Claim C4: pushing a byte into a full ReceiveRing drops it silently and
never overwrites unread data: the ISR leaves the state unchanged, so
`is_full()` stays true and the next `pop()` still returns the original
oldest unread byte `rx_buffer[tail]`. -/
theorem claimC4 (s : RingState) (b : Nat) (hw : wfRing s)
    (hf : buffer_is_full s = true) :
    isrPush b s = s ∧
    buffer_is_full (isrPush b s) = true ∧
    (buffer_read (isrPush b s)).1 = s.buf s.tail ∧
    (buffer_read (isrPush b s)).2.tail = (s.tail + 1) % 64 := by
  obtain ⟨h1, h2⟩ := hw
  rw [buffer_is_full_iff] at hf
  have hpush : isrPush b s = s := isrPush_full s b hf
  have hne : s.head ≠ s.tail := by omega
  rw [hpush, buffer_read_nonempty s hne]
  exact ⟨rfl, by rw [buffer_is_full_iff]; exact hf, rfl, rfl⟩

/-- Witness for C4 at a concrete full ring. -/
theorem claimC4_witness :
    isrPush 42 fullRing = fullRing ∧
    buffer_is_full (isrPush 42 fullRing) = true ∧
    (buffer_read (isrPush 42 fullRing)).1 = fullRing.buf fullRing.tail ∧
    (buffer_read (isrPush 42 fullRing)).2.tail = (fullRing.tail + 1) % 64 :=
  claimC4 fullRing 42 (by constructor <;> decide) (by decide)

/-- Claim C5: for every interleaved push/pop sequence whose total pushed
count stays below capacity − 1 = 63, after every prefix of the run from
the startup state the bytes popped so far followed by the bytes still
buffered are exactly the bytes pushed so far, in order (FIFO), and
`is_empty()` / `is_full()` agree with the `head`/`tail` invariant and
with the abstract content at that step. -/
theorem claimC5 (ops p q : List RingOp) (hsplit : ops = p ++ q)
    (hcount : numPushes ops < 63) :
    pushedOf p = (runOps p ring0).2 ++ absRing (runOps p ring0).1 ∧
    (buffer_is_empty (runOps p ring0).1 = true ↔
      (runOps p ring0).1.head = (runOps p ring0).1.tail) ∧
    (buffer_is_full (runOps p ring0).1 = true ↔
      ((runOps p ring0).1.head + 1) % 64 = (runOps p ring0).1.tail) ∧
    (buffer_is_empty (runOps p ring0).1 = true ↔ absRing (runOps p ring0).1 = []) ∧
    (buffer_is_full (runOps p ring0).1 = true ↔
      (absRing (runOps p ring0).1).length = 63) := by
  have hp : numPushes p ≤ numPushes ops := by
    rw [hsplit, numPushes_append]; omega
  have h0 : wfRing ring0 := ⟨by decide, by decide⟩
  have hsz0 : ringSize ring0 = 0 := by decide
  obtain ⟨hwf, heq⟩ := runOps_spec p ring0 h0 (by omega)
  have habs0 : absRing ring0 = [] := by decide
  rw [habs0, List.nil_append] at heq
  refine ⟨heq, buffer_is_empty_iff _, buffer_is_full_iff _, ?_, ?_⟩
  · rw [buffer_is_empty_iff, absRing_nil_iff _ hwf]
  · rw [full_iff_size _ hwf, absRing_length]

/-- Witness for C5: a concrete run (two pushes, then one pop) from the
startup state satisfies the FIFO decomposition. -/
theorem claimC5_witness :
    pushedOf [RingOp.push 7, RingOp.push 9, RingOp.pop] =
      (runOps [RingOp.push 7, RingOp.push 9, RingOp.pop] ring0).2 ++
        absRing (runOps [RingOp.push 7, RingOp.push 9, RingOp.pop] ring0).1 :=
  (claimC5 [RingOp.push 7, RingOp.push 9, RingOp.pop]
    [RingOp.push 7, RingOp.push 9, RingOp.pop] [] rfl (by decide)).1

/-- Claim C9: reading an empty ReceiveRing returns the sentinel `-1`
(byte pattern 255) and leaves the whole state — in particular `head` and
`tail` — unchanged; and the sentinel is indistinguishable from a
genuinely received 0xFF byte: there is a non-empty ring whose read also
returns 255. -/
theorem claimC9 (s : RingState) (he : s.head = s.tail) :
    buffer_read s = (255, s) ∧
    ∃ s', buffer_is_empty s' = false ∧ (buffer_read s').1 = 255 := by
  refine ⟨by simp [buffer_read, he], ⟨⟨fun _ => 255, 1, 0⟩, by decide, by decide⟩⟩

/-- Witness for C9 at the startup (empty) ring. -/
theorem claimC9_witness : buffer_read ring0 = (255, ring0) :=
  (claimC9 ring0 rfl).1

/-! ### TaskQueue lemmas -/

theorem mem_insertAfter (e : TaskEntry) :
    ∀ (rest : List TaskEntry) (cur x : TaskEntry),
    x ∈ insertAfter e cur rest → x = e ∨ x ∈ cur :: rest := by
  intro rest
  induction rest with
  | nil =>
    intro cur x hx
    simp only [insertAfter, List.mem_cons, List.not_mem_nil, or_false] at hx
    rcases hx with h | h
    · exact Or.inr (by simp [h])
    · exact Or.inl h
  | cons nxt rest ih =>
    intro cur x hx
    by_cases hc : nxt.priority ≤ e.priority
    · simp only [insertAfter, if_pos hc, List.mem_cons] at hx
      rcases hx with h | h
      · simp [List.mem_cons, h]
      · rcases ih nxt x h with h2 | h2
        · exact Or.inl h2
        · simp only [List.mem_cons] at h2 ⊢
          tauto
    · simp only [insertAfter, if_neg hc, List.mem_cons] at hx
      simp only [List.mem_cons]
      tauto

theorem insertAfter_sorted (e : TaskEntry) :
    ∀ (rest : List TaskEntry) (cur : TaskEntry),
    cur.priority ≤ e.priority →
    List.Pairwise (fun a b : TaskEntry => a.priority ≤ b.priority) (cur :: rest) →
    List.Pairwise (fun a b : TaskEntry => a.priority ≤ b.priority)
      (insertAfter e cur rest) := by
  intro rest
  induction rest with
  | nil =>
    intro cur hle _
    simp only [insertAfter, List.pairwise_cons, List.mem_cons, List.not_mem_nil,
      or_false]
    exact ⟨fun x hx => by rw [hx]; exact hle, fun x hx => hx.elim, List.Pairwise.nil⟩
  | cons nxt rest ih =>
    intro cur hle hp
    rw [List.pairwise_cons] at hp
    obtain ⟨hcur, hp2⟩ := hp
    by_cases hc : nxt.priority ≤ e.priority
    · simp only [insertAfter, if_pos hc]
      rw [List.pairwise_cons]
      refine ⟨?_, ih nxt hc hp2⟩
      intro x hx
      rcases mem_insertAfter e rest nxt x hx with h | h
      · rw [h]; exact hle
      · exact hcur x h
    · simp only [insertAfter, if_neg hc]
      have hlt : e.priority < nxt.priority := by omega
      have hnxt : ∀ x ∈ rest, nxt.priority ≤ x.priority :=
        (List.pairwise_cons.mp hp2).1
      rw [List.pairwise_cons]
      refine ⟨?_, ?_⟩
      · intro x hx
        simp only [List.mem_cons] at hx
        rcases hx with h | h | h
        · rw [h]; exact hle
        · rw [h]; exact hcur nxt (by simp)
        · exact hcur x (by simp [h])
      · rw [List.pairwise_cons]
        refine ⟨?_, hp2⟩
        intro x hx
        simp only [List.mem_cons] at hx
        rcases hx with h | h
        · rw [h]; omega
        · have := hnxt x h; omega

theorem sorted_filter_nil (l : List TaskEntry) (pr : Nat)
    (h : ∀ x ∈ l, pr < x.priority) :
    l.filter (fun x => x.priority == pr) = [] := by
  rw [List.filter_eq_nil_iff]
  intro a ha
  have := h a ha
  simp only [beq_iff_eq]
  omega

theorem insertAfter_filter (e : TaskEntry) :
    ∀ (rest : List TaskEntry) (cur : TaskEntry), cur.priority ≤ e.priority →
    List.Pairwise (fun a b : TaskEntry => a.priority ≤ b.priority) (cur :: rest) →
    ∀ pr : Nat,
    (insertAfter e cur rest).filter (fun x => x.priority == pr) =
      ((cur :: rest).filter (fun x => x.priority == pr)) ++
        (if e.priority = pr then [e] else []) := by
  intro rest
  induction rest with
  | nil =>
    intro cur _ _ pr
    simp only [insertAfter]
    by_cases hee : e.priority = pr
    · cases hcc : (cur.priority == pr) <;> simp [List.filter_cons, hcc, hee]
    · cases hcc : (cur.priority == pr) <;> simp [List.filter_cons, hcc, hee]
  | cons nxt rest ih =>
    intro cur hle hp pr
    rw [List.pairwise_cons] at hp
    obtain ⟨hcur, hp2⟩ := hp
    by_cases hc : nxt.priority ≤ e.priority
    · simp only [insertAfter, if_pos hc]
      rw [List.filter_cons, List.filter_cons, ih nxt hc hp2 pr]
      cases hcc : (cur.priority == pr) <;> simp [hcc]
    · simp only [insertAfter, if_neg hc]
      have hlt : e.priority < nxt.priority := by omega
      have hnxt : ∀ x ∈ rest, nxt.priority ≤ x.priority :=
        (List.pairwise_cons.mp hp2).1
      by_cases hee : e.priority = pr
      · have hrest : ∀ x ∈ nxt :: rest, pr < x.priority := by
          intro x hx
          simp only [List.mem_cons] at hx
          rcases hx with h | h
          · rw [h]; omega
          · have := hnxt x h; omega
        have hn2 : ¬nxt.priority = pr := by
          have := hrest nxt (by simp)
          omega
        have hr2 : rest.filter (fun x => x.priority == pr) = [] :=
          sorted_filter_nil rest pr (fun x hx => hrest x (by simp [hx]))
        by_cases hcu : cur.priority = pr <;>
          simp [List.filter_cons, hee, hcu, hn2, hr2]
      · by_cases hcu : cur.priority = pr <;>
          simp [List.filter_cons, hee, hcu]

theorem add_log_sorted (q : List TaskEntry) (msg : List Nat) (d p : Nat)
    (hq : List.Pairwise (fun a b : TaskEntry => a.priority ≤ b.priority) q) :
    List.Pairwise (fun a b : TaskEntry => a.priority ≤ b.priority)
      (add_log q msg d p) := by
  cases q with
  | nil => simp [add_log]
  | cons h t =>
    by_cases hlt : p < h.priority
    · simp only [add_log, if_pos hlt]
      rw [List.pairwise_cons]
      refine ⟨?_, hq⟩
      rw [List.pairwise_cons] at hq
      obtain ⟨hh, _⟩ := hq
      intro x hx
      show p ≤ x.priority
      simp only [List.mem_cons] at hx
      rcases hx with h2 | h2
      · rw [h2]; omega
      · have := hh x h2; omega
    · simp only [add_log, if_neg hlt]
      exact insertAfter_sorted (mkNode msg d p) t h (by show h.priority ≤ p; omega) hq

theorem add_log_filter (q : List TaskEntry) (msg : List Nat) (d p : Nat)
    (hq : List.Pairwise (fun a b : TaskEntry => a.priority ≤ b.priority) q)
    (pr : Nat) :
    (add_log q msg d p).filter (fun x => x.priority == pr) =
      q.filter (fun x => x.priority == pr) ++
        (if p = pr then [mkNode msg d p] else []) := by
  cases q with
  | nil =>
    by_cases hpp : p = pr <;> simp [add_log, mkNode, hpp]
  | cons h t =>
    by_cases hlt : p < h.priority
    · simp only [add_log, if_pos hlt]
      by_cases hpp : p = pr
      · rw [List.pairwise_cons] at hq
        obtain ⟨hh, _⟩ := hq
        have hrest : ∀ x ∈ h :: t, pr < x.priority := by
          intro x hx
          simp only [List.mem_cons] at hx
          rcases hx with h2 | h2
          · rw [h2]; omega
          · have := hh x h2; omega
        have hfn := sorted_filter_nil (h :: t) pr hrest
        rw [List.filter_cons_of_pos (by simp [mkNode, hpp]), hfn, if_pos hpp]
        simp
      · rw [List.filter_cons_of_neg (by simp [mkNode, hpp]), if_neg hpp]
        simp
    · simp only [add_log, if_neg hlt]
      have := insertAfter_filter (mkNode msg d p) t h
        (by show h.priority ≤ p; omega) hq pr
      rw [this]
      show _ = _ ++ (if p = pr then [mkNode msg d p] else [])
      rfl

theorem buildQueue_go (items : List (List Nat × Nat × Nat)) :
    ∀ q : List TaskEntry,
    List.Pairwise (fun a b : TaskEntry => a.priority ≤ b.priority) q →
    List.Pairwise (fun a b : TaskEntry => a.priority ≤ b.priority)
      (items.foldl (fun q it => add_log q it.1 it.2.1 it.2.2) q) ∧
    ∀ pr : Nat,
      (items.foldl (fun q it => add_log q it.1 it.2.1 it.2.2) q).filter
          (fun x => x.priority == pr) =
        q.filter (fun x => x.priority == pr) ++
          (items.filter (fun it => it.2.2 == pr)).map
            (fun it => mkNode it.1 it.2.1 it.2.2) := by
  induction items with
  | nil => intro q hq; simp [hq]
  | cons it items ih =>
    intro q hq
    simp only [List.foldl_cons]
    obtain ⟨ih1, ih2⟩ := ih (add_log q it.1 it.2.1 it.2.2)
      (add_log_sorted q it.1 it.2.1 it.2.2 hq)
    refine ⟨ih1, ?_⟩
    intro pr
    rw [ih2 pr, add_log_filter q it.1 it.2.1 it.2.2 hq pr]
    by_cases hm : it.2.2 = pr
    · rw [List.filter_cons_of_pos (by simp [hm])]
      simp [hm, List.append_assoc]
    · rw [List.filter_cons_of_neg (by simp [hm])]
      simp [hm]

/-- Claim C1: for every sequence of insertions into the TaskQueue (built
by the `add_log` walk rule), the queue is in non-decreasing priority
order, entries of equal priority appear in their original insertion
order (for every priority class, the class subsequence of the queue
equals the class subsequence of the insertion list), and the `print_log`
rendering front to back therefore lists non-decreasing priorities. -/
theorem claimC1 (items : List (List Nat × Nat × Nat)) :
    List.Pairwise (fun a b : TaskEntry => a.priority ≤ b.priority)
      (buildQueue items) ∧
    (∀ pr : Nat, (buildQueue items).filter (fun x => x.priority == pr) =
      (items.filter (fun it => it.2.2 == pr)).map
        (fun it => mkNode it.1 it.2.1 it.2.2)) ∧
    List.Pairwise (fun a b : Nat × List Nat => a.1 ≤ b.1)
      (renderLog (buildQueue items)) := by
  obtain ⟨h1, h2⟩ := buildQueue_go items [] (by simp)
  refine ⟨h1, ?_, ?_⟩
  · intro pr
    simpa using h2 pr
  · exact List.Pairwise.map _ (fun a b h => h) h1

/-! ### Tick execution lemmas -/

theorem execute_tasks_eq (q : List TaskEntry) :
    execute_tasks q =
      (q.filterMap (fun e => if 0 < e.delay_ticks then
          some { e with delay_ticks := e.delay_ticks - 1 } else none),
       (q.filter (fun e => e.delay_ticks == 0)).map (fun e => e.data)) := by
  induction q with
  | nil => rfl
  | cons e rest ih =>
    by_cases hd : 0 < e.delay_ticks
    · have hz : ¬e.delay_ticks = 0 := by omega
      have h1 : (fun e : TaskEntry => if 0 < e.delay_ticks then
          some { e with delay_ticks := e.delay_ticks - 1 } else none) e =
          some { e with delay_ticks := e.delay_ticks - 1 } := by simp [hd]
      have h2 : ¬((e.delay_ticks == 0) = true) := by simp [hz]
      simp only [execute_tasks, if_pos hd, ih]
      rw [@List.filterMap_cons_some TaskEntry TaskEntry
          (fun e => if 0 < e.delay_ticks then
            some { e with delay_ticks := e.delay_ticks - 1 } else none)
          e rest { e with delay_ticks := e.delay_ticks - 1 } h1,
        @List.filter_cons_of_neg TaskEntry (fun e => e.delay_ticks == 0) e rest h2]
    · have hz : e.delay_ticks = 0 := by omega
      have h1 : (fun e : TaskEntry => if 0 < e.delay_ticks then
          some { e with delay_ticks := e.delay_ticks - 1 } else none) e = none := by
        simp [hd]
      have h2 : (e.delay_ticks == 0) = true := by simp [hz]
      simp only [execute_tasks, if_neg hd, ih]
      rw [@List.filterMap_cons_none TaskEntry TaskEntry
          (fun e => if 0 < e.delay_ticks then
            some { e with delay_ticks := e.delay_ticks - 1 } else none)
          e rest h1,
        @List.filter_cons_of_pos TaskEntry (fun e => e.delay_ticks == 0) e rest h2,
        List.map_cons]

theorem iterTicks_queue_eq (n : Nat) :
    ∀ q : List TaskEntry,
    (iterTicks n q).1 = q.filterMap (fun e => if n ≤ e.delay_ticks then
        some { e with delay_ticks := e.delay_ticks - n } else none) := by
  induction n with
  | zero =>
    intro q
    have hfun : (fun e : TaskEntry => if 0 ≤ e.delay_ticks then
        some { e with delay_ticks := e.delay_ticks - 0 } else none) = some := by
      funext e
      simp
    rw [hfun]
    simp [iterTicks, List.filterMap_some]
  | succ n ih =>
    intro q
    have step : (iterTicks (n + 1) q).1 = (iterTicks n (execute_tasks q).1).1 := rfl
    rw [step, ih, execute_tasks_eq, List.filterMap_filterMap]
    congr 1
    funext e
    by_cases hd : 0 < e.delay_ticks
    · rw [if_pos hd, Option.some_bind]
      by_cases hn : n ≤ e.delay_ticks - 1
      · rw [if_pos hn, if_pos (by omega)]
        have harith : e.delay_ticks - 1 - n = e.delay_ticks - (n + 1) := by omega
        simp [harith]
      · rw [if_neg hn, if_neg (by omega)]
    · rw [if_neg hd, if_neg (by omega), Option.none_bind]

theorem filterMap_tick_filter (q : List TaskEntry) (j : Nat) :
    (q.filterMap (fun e => if 0 < e.delay_ticks then
        some { e with delay_ticks := e.delay_ticks - 1 } else none)).filter
      (fun e => e.delay_ticks == j) =
    (q.filter (fun e => e.delay_ticks == j + 1)).map
      (fun e => { e with delay_ticks := e.delay_ticks - 1 }) := by
  induction q with
  | nil => rfl
  | cons e rest ih =>
    by_cases hd : 0 < e.delay_ticks
    · rw [List.filterMap_cons_some (by simp [hd] : _ = some
        { e with delay_ticks := e.delay_ticks - 1 })]
      by_cases hj : e.delay_ticks = j + 1
      · rw [List.filter_cons_of_pos (by simp; omega),
          List.filter_cons_of_pos (by simp [hj]), List.map_cons, ih]
      · rw [List.filter_cons_of_neg (by simp; omega),
          List.filter_cons_of_neg (by simp [hj]), ih]
    · have hz : e.delay_ticks = 0 := by omega
      rw [List.filterMap_cons_none (by simp [hd]),
        List.filter_cons_of_neg (by simp [hz]), ih]

theorem iterTicks_out_eq (n : Nat) :
    ∀ q : List TaskEntry,
    (iterTicks n q).2 = ((List.range n).map (fun j =>
        (q.filter (fun e => e.delay_ticks == j)).map (fun e => e.data))).flatten := by
  induction n with
  | zero => intro q; rfl
  | succ n ih =>
    intro q
    have step : (iterTicks (n + 1) q).2 =
        (execute_tasks q).2 ++ (iterTicks n (execute_tasks q).1).2 := rfl
    have hfun : (fun j => (((execute_tasks q).1).filter
          (fun e => e.delay_ticks == j)).map (fun e => e.data)) =
        fun j => (q.filter (fun e => e.delay_ticks == j + 1)).map
          (fun e => e.data) := by
      funext j
      rw [execute_tasks_eq]
      show ((q.filterMap (fun e => if 0 < e.delay_ticks then
          some { e with delay_ticks := e.delay_ticks - 1 } else none)).filter
        (fun e => e.delay_ticks == j)).map (fun e => e.data) = _
      rw [filterMap_tick_filter, List.map_map]
      rfl
    rw [step, ih]
    rw [List.range_succ_eq_map, List.map_cons, List.flatten_cons, List.map_map]
    congr 1
    · rw [execute_tasks_eq]
    · rw [hfun]
      rfl

theorem iterTicks_nilQ (n : Nat) : iterTicks n [] = ([], []) := by
  induction n with
  | zero => rfl
  | succ n ih => simp [iterTicks, execute_tasks, ih]

theorem iterTicks_add (a b : Nat) :
    ∀ q : List TaskEntry,
    iterTicks (a + b) q = ((iterTicks b (iterTicks a q).1).1,
      (iterTicks a q).2 ++ (iterTicks b (iterTicks a q).1).2) := by
  induction a with
  | zero =>
    intro q
    simp [iterTicks]
  | succ a ih =>
    intro q
    have harith : a + 1 + b = (a + b) + 1 := by omega
    rw [harith]
    show (let r := execute_tasks q
          let r2 := iterTicks (a + b) r.1
          (r2.1, r.2 ++ r2.2)) = _
    simp only []
    rw [ih (execute_tasks q).1]
    have ha : iterTicks (a + 1) q =
        ((iterTicks a (execute_tasks q).1).1,
         (execute_tasks q).2 ++ (iterTicks a (execute_tasks q).1).2) := rfl
    rw [ha]
    simp [List.append_assoc]

theorem iterTicks_singleton (msg : List Nat) (p n : Nat) :
    iterTicks (n + 1) [⟨msg, n, p⟩] = ([], [msg]) := by
  induction n with
  | zero => simp [iterTicks, execute_tasks]
  | succ k ih =>
    show (let r := execute_tasks [⟨msg, k + 1, p⟩]
          let r2 := iterTicks (k + 1) r.1
          (r2.1, r.2 ++ r2.2)) = ([], [msg])
    have hex : execute_tasks [⟨msg, k + 1, p⟩] = ([⟨msg, k, p⟩], []) := by
      simp [execute_tasks]
    simp only [hex, ih]
    rfl

/-- Claim C2 counterexample: insert ("A", delay 20 ms = 2 ticks, priority 3)
into an empty queue. After two calls of `execute_tasks` nothing has been
executed and the entry is still in the queue (with `delay_ticks = 0`);
only the third call executes it — contradicting the claim that the entry
runs on the second tick and is gone afterwards. -/
theorem claimC2_cex :
    (iterTicks 2 (add_log [] [65] 20 3)).2 = [] ∧
    (iterTicks 2 (add_log [] [65] 20 3)).1 ≠ [] ∧
    iterTicks 3 (add_log [] [65] 20 3) = ([], [strncpyData [65]]) := by
  refine ⟨by decide, by decide, by decide⟩

/-- Claim C2 amended: an entry with `delay_ticks = N` is executed exactly
once, on the (N+1)-th call of `tick()` — the first N calls only count the
delay down to 0 — and it is absent from the queue on all subsequent
calls. In general, after `n` ticks the queue holds exactly the entries
whose original delay is ≥ n (delays reduced by n, order preserved), and
the payloads emitted during the first n ticks are, per tick j+1, exactly
those of the entries with original delay j, in queue order. -/
theorem claimC2_amended (q : List TaskEntry) (n : Nat) :
    (iterTicks n q).1 = q.filterMap (fun e => if n ≤ e.delay_ticks then
        some { e with delay_ticks := e.delay_ticks - n } else none) ∧
    (iterTicks n q).2 = ((List.range n).map (fun j =>
        (q.filter (fun e => e.delay_ticks == j)).map (fun e => e.data))).flatten ∧
    (∀ (msg : List Nat) (p : Nat), iterTicks (n + 1) [⟨msg, n, p⟩] = ([], [msg])) ∧
    (∀ (msg : List Nat) (p j : Nat),
      iterTicks (n + 1 + j) [⟨msg, n, p⟩] = ([], [msg])) := by
  refine ⟨iterTicks_queue_eq n q, iterTicks_out_eq n q,
    fun msg p => iterTicks_singleton msg p n, ?_⟩
  intro msg p j
  rw [iterTicks_add (n + 1) j, iterTicks_singleton msg p n]
  simp [iterTicks_nilQ]

/-- Claim C10: `add_log` converts its millisecond delay to ticks by
truncating integer division by `TICK_MS = 10`; any delay below 10 ms
gives `delay_ticks = 0`, so the task is emitted on the very next
scheduler pass, and 25 ms gives 2 ticks, not 3. -/
theorem claimC10 (msg : List Nat) (d p : Nat) (hd : d < 10) :
    (mkNode msg d p).delay_ticks = 0 ∧
    execute_tasks (add_log [] msg d p) = ([], [strncpyData msg]) ∧
    (mkNode msg 25 p).delay_ticks = 2 ∧
    (mkNode msg d p).delay_ticks = d / TICK_MS := by
  have h0 : d / 10 = 0 := Nat.div_eq_of_lt hd
  have hnode : mkNode msg d p = ⟨strncpyData msg, 0, p⟩ := by
    simp [mkNode, TICK_MS, h0]
  refine ⟨by rw [hnode], ?_, rfl, rfl⟩
  show execute_tasks [mkNode msg d p] = ([], [strncpyData msg])
  rw [hnode]
  simp [execute_tasks]

/-- Witness for C10 at a concrete insertion ("H", 3 ms, priority 5). -/
theorem claimC10_witness :
    (mkNode [72] 3 5).delay_ticks = 0 ∧
    execute_tasks (add_log [] [72] 3 5) = ([], [strncpyData [72]]) ∧
    (mkNode [72] 25 5).delay_ticks = 2 ∧
    (mkNode [72] 3 5).delay_ticks = 3 / TICK_MS :=
  claimC10 [72] 3 5 (by decide)

/-! ### EEPROM persistence lemmas -/

/-- Default entry used only to state positional lookups. -/
def defaultEntry : TaskEntry := ⟨[], 0, 0⟩

theorem getD_lt {α : Type} (l : List α) (d : α) :
    ∀ i : Nat, ∀ h : i < l.length, l.getD i d = l[i] := by
  induction l with
  | nil => intro i h; simp at h
  | cons x xs ih =>
    intro i h
    cases i with
    | zero => rfl
    | succ j => exact ih j (by simp at h; omega)

theorem getD_append_lt {α : Type} (l1 l2 : List α) (d : α) :
    ∀ i : Nat, i < l1.length → (l1 ++ l2).getD i d = l1.getD i d := by
  induction l1 with
  | nil => intro i h; simp at h
  | cons x xs ih =>
    intro i h
    cases i with
    | zero => rfl
    | succ j => exact ih j (by simp at h; omega)

theorem getD_append_ge {α : Type} (l1 l2 : List α) (d : α) :
    ∀ i : Nat, l1.length ≤ i → (l1 ++ l2).getD i d = l2.getD (i - l1.length) d := by
  induction l1 with
  | nil => intro i _; simp
  | cons x xs ih =>
    intro i h
    cases i with
    | zero => simp at h
    | succ j =>
      show (xs ++ l2).getD j d = _
      rw [ih j (by simp at h; omega)]
      simp

theorem writeBytes_out : ∀ (bs : List Nat) (m : Nat → Nat) (a x : Nat),
    (x < a ∨ a + bs.length ≤ x) → writeBytes m a bs x = m x := by
  intro bs
  induction bs with
  | nil => intro m a x _; rfl
  | cons b bs ih =>
    intro m a x h
    simp only [List.length_cons] at h
    show writeBytes (fun y => if y = a then b % 256 else m y) (a + 1) bs x = m x
    rw [ih _ (a + 1) x (by omega)]
    have hne : x ≠ a := by omega
    simp [hne]

theorem writeBytes_in : ∀ (bs : List Nat) (m : Nat → Nat) (a j : Nat),
    j < bs.length → writeBytes m a bs (a + j) = bs.getD j 0 % 256 := by
  intro bs
  induction bs with
  | nil => intro m a j h; simp at h
  | cons b bs ih =>
    intro m a j h
    show writeBytes (fun y => if y = a then b % 256 else m y) (a + 1) bs (a + j) = _
    cases j with
    | zero =>
      rw [writeBytes_out bs _ (a + 1) (a + 0) (by omega)]
      simp
    | succ i =>
      have harith : a + (i + 1) = (a + 1) + i := by omega
      rw [harith, ih _ (a + 1) i (by simp at h; omega)]
      simp

theorem writeBytes_append : ∀ (xs ys : List Nat) (m : Nat → Nat) (a : Nat),
    writeBytes m a (xs ++ ys) =
      writeBytes (writeBytes m a xs) (a + xs.length) ys := by
  intro xs
  induction xs with
  | nil => intro ys m a; simp [writeBytes]
  | cons x xs ih =>
    intro ys m a
    show writeBytes (fun y => if y = a then x % 256 else m y) (a + 1) (xs ++ ys) = _
    rw [ih ys _ (a + 1)]
    have harith : a + 1 + xs.length = a + (xs.length + 1) := by omega
    rw [harith]
    rfl

theorem deser_congr (m1 m2 : Nat → Nat) (a : Nat)
    (h : ∀ j, j < 37 → m1 (a + j) = m2 (a + j)) :
    deserializeRecord m1 a = deserializeRecord m2 a := by
  unfold deserializeRecord
  simp only [TaskEntry.mk.injEq]
  refine ⟨?_, ?_, h 34 (by omega)⟩
  · apply List.ext_getElem
    · simp
    · intro i hi1 hi2
      simp only [List.getElem_map, List.getElem_range]
      have hi : i < 32 := by simpa using hi1
      exact h i (by omega)
  · rw [h 32 (by omega), h 33 (by omega)]

theorem serializeRecord_length (e : TaskEntry) (p : Nat)
    (hlen : e.data.length = 32) : (serializeRecord e p).length = 37 := by
  simp [serializeRecord, hlen]

theorem deser_of_written (e : TaskEntry) (p : Nat) (m : Nat → Nat) (a : Nat)
    (hwf : wfEntry e) :
    deserializeRecord (writeBytes m a (serializeRecord e p)) a = e := by
  obtain ⟨hlen, hbytes, hdel, hpri⟩ := hwf
  have hslen : (serializeRecord e p).length = 37 := serializeRecord_length e p hlen
  have hin : ∀ j, j < 37 →
      writeBytes m a (serializeRecord e p) (a + j) =
        (serializeRecord e p).getD j 0 % 256 := by
    intro j hj
    exact writeBytes_in _ m a j (by omega)
  have hdata : ∀ i, i < 32 →
      writeBytes m a (serializeRecord e p) (a + i) = e.data.getD i 0 := by
    intro i hi
    rw [hin i (by omega)]
    show (e.data ++ [e.delay_ticks % 256, e.delay_ticks / 256 % 256,
      e.priority % 256, p % 256, p / 256 % 256]).getD i 0 % 256 = _
    rw [getD_append_lt _ _ _ i (by omega)]
    have hmem : e.data.getD i 0 ∈ e.data := by
      rw [getD_lt _ _ i (by omega)]
      exact List.getElem_mem _
    have := hbytes _ hmem
    omega
  have hsuffix : ∀ j, 32 ≤ j → j < 37 →
      writeBytes m a (serializeRecord e p) (a + j) =
        [e.delay_ticks % 256, e.delay_ticks / 256 % 256,
         e.priority % 256, p % 256, p / 256 % 256].getD (j - 32) 0 % 256 := by
    intro j hj1 hj2
    rw [hin j hj2]
    show (e.data ++ _).getD j 0 % 256 = _
    rw [getD_append_ge _ _ _ j (by omega), hlen]
  obtain ⟨da, dl, pr⟩ := e
  simp only at hlen hbytes hdel hpri hdata hsuffix
  unfold deserializeRecord
  simp only [TaskEntry.mk.injEq]
  refine ⟨?_, ?_, ?_⟩
  · apply List.ext_getElem
    · simpa using hlen.symm
    · intro i hi1 hi2
      simp only [List.getElem_map, List.getElem_range]
      have hi : i < 32 := by simpa using hi1
      rw [hdata i hi, getD_lt _ _ i (by omega)]
  · have h32 := hsuffix 32 (by omega) (by omega)
    have h33 := hsuffix 33 (by omega) (by omega)
    simp only [Nat.sub_self] at h32
    have hj : (33 : Nat) - 32 = 1 := by omega
    rw [hj] at h33
    simp only [List.getD_cons_zero, List.getD_cons_succ] at h32 h33
    rw [h32, h33]
    omega
  · have h34 := hsuffix 34 (by omega) (by omega)
    have hj : (34 : Nat) - 32 = 2 := by omega
    rw [hj] at h34
    simp only [List.getD_cons_succ, List.getD_cons_zero] at h34
    rw [h34]
    omega

theorem serialFrom_length (ptrFn : Nat → Nat) :
    ∀ (Q : List TaskEntry) (k : Nat), (∀ e ∈ Q, e.data.length = 32) →
    (serialFrom ptrFn k Q).length = recordSize * Q.length := by
  intro Q
  induction Q with
  | nil => intro k _; simp [serialFrom, recordSize]
  | cons e rest ih =>
    intro k hwf
    have h1 : e.data.length = 32 := hwf e (by simp)
    have h2 := ih (k + 1) (fun x hx => hwf x (by simp [hx]))
    show (serializeRecord e (ptrFn k) ++ serialFrom ptrFn (k + 1) rest).length = _
    rw [List.length_append, serializeRecord_length e _ h1, h2]
    show 37 + recordSize * rest.length = recordSize * (rest.length + 1)
    simp only [recordSize]
    omega

theorem saveGo_char (ptrFn : Nat → Nat) :
    ∀ (Q : List TaskEntry) (k : Nat) (st : EEState),
    st.addr + recordSize * Q.length < 65536 →
    (∀ e ∈ Q, e.data.length = 32) →
    saveGo ptrFn k Q st =
      ⟨writeBytes st.mem st.addr (serialFrom ptrFn k Q),
       (st.addr + recordSize * Q.length) % 65536⟩ := by
  intro Q
  induction Q with
  | nil =>
    intro k st hb _
    obtain ⟨m, a⟩ := st
    simp only [List.length_nil, recordSize] at hb
    show (⟨m, a⟩ : EEState) = ⟨m, (a + recordSize * 0) % 65536⟩
    have ha : (a + recordSize * 0) % 65536 = a := by
      simp only [recordSize]
      omega
    rw [ha]
  | cons e rest ih =>
    intro k st hb hwf
    have h1 : e.data.length = 32 := hwf e (by simp)
    have hslen : (serializeRecord e (ptrFn k)).length = 37 :=
      serializeRecord_length e _ h1
    have hb' : st.addr + recordSize * (rest.length + 1) < 65536 := by
      simpa using hb
    have haddr : (st.addr + recordSize) % 65536 = st.addr + 37 := by
      simp only [recordSize] at hb' ⊢
      omega
    show saveGo ptrFn (k + 1) rest
        ⟨writeBytes st.mem st.addr (serializeRecord e (ptrFn k)),
         (st.addr + recordSize) % 65536⟩ = _
    rw [ih (k + 1)
        ⟨writeBytes st.mem st.addr (serializeRecord e (ptrFn k)),
         (st.addr + recordSize) % 65536⟩
        (by rw [haddr]; simp only [recordSize] at hb' ⊢; omega)
        (fun x hx => hwf x (by simp [hx]))]
    show (⟨writeBytes (writeBytes st.mem st.addr (serializeRecord e (ptrFn k)))
        ((st.addr + recordSize) % 65536) (serialFrom ptrFn (k + 1) rest), _⟩ : EEState) = _
    rw [haddr]
    show (⟨writeBytes (writeBytes st.mem st.addr (serializeRecord e (ptrFn k)))
        (st.addr + 37) (serialFrom ptrFn (k + 1) rest),
        (st.addr + 37 + recordSize * rest.length) % 65536⟩ : EEState) = _
    have hmem : writeBytes st.mem st.addr
        (serializeRecord e (ptrFn k) ++ serialFrom ptrFn (k + 1) rest) =
        writeBytes (writeBytes st.mem st.addr (serializeRecord e (ptrFn k)))
          (st.addr + 37) (serialFrom ptrFn (k + 1) rest) := by
      rw [writeBytes_append, hslen]
    have haddr2 : (st.addr + 37 + recordSize * rest.length) % 65536 =
        (st.addr + recordSize * (rest.length + 1)) % 65536 := by
      simp only [recordSize]
      have : st.addr + 37 + 37 * rest.length = st.addr + 37 * (rest.length + 1) := by
        omega
      rw [this]
    rw [haddr2]
    show _ = (⟨writeBytes st.mem st.addr (serialFrom ptrFn k (e :: rest)),
        (st.addr + recordSize * (e :: rest).length) % 65536⟩ : EEState)
    rw [show serialFrom ptrFn k (e :: rest) =
        serializeRecord e (ptrFn k) ++ serialFrom ptrFn (k + 1) rest from rfl, hmem]
    rfl

theorem loadGo_char : ∀ (n : Nat) (m : Nat → Nat) (a : Nat) (q : List TaskEntry),
    a + recordSize * n < 65536 →
    loadGo n ⟨m, a⟩ q =
      (((List.range n).map (fun i =>
          deserializeRecord m (a + recordSize * i))).reverse ++ q,
       ⟨m, a + recordSize * n⟩) := by
  intro n
  induction n with
  | zero =>
    intro m a q _
    simp [loadGo]
  | succ n ih =>
    intro m a q hb
    simp only [recordSize] at hb
    have haddr : (a + recordSize) % 65536 = a + 37 := by
      simp only [recordSize]
      omega
    show loadGo n ⟨m, (a + recordSize) % 65536⟩ (deserializeRecord m a :: q) = _
    rw [haddr, ih m (a + 37) (deserializeRecord m a :: q)
      (by simp only [recordSize]; omega)]
    have hfun : ((fun i => deserializeRecord m (a + recordSize * i)) ∘ Nat.succ) =
        (fun i => deserializeRecord m (a + 37 + recordSize * i)) := by
      funext i
      show deserializeRecord m (a + recordSize * (i + 1)) = _
      have harith : a + recordSize * (i + 1) = a + 37 + recordSize * i := by
        simp only [recordSize]
        omega
      rw [harith]
    rw [List.range_succ_eq_map, List.map_cons, List.map_map, hfun,
      List.reverse_cons, List.append_assoc]
    have harith2 : a + recordSize * 0 = a := by simp [recordSize]
    rw [harith2]
    have harith3 : a + 37 + recordSize * n = a + recordSize * (n + 1) := by
      simp only [recordSize]
      omega
    rw [harith3]
    rfl

theorem records_after_write (ptrFn : Nat → Nat) :
    ∀ (Q : List TaskEntry) (k : Nat) (m : Nat → Nat) (a : Nat),
    (∀ e ∈ Q, wfEntry e) →
    ∀ i, i < Q.length →
    deserializeRecord (writeBytes m a (serialFrom ptrFn k Q))
        (a + recordSize * i) = Q.getD i defaultEntry := by
  intro Q
  induction Q with
  | nil => intro k m a _ i hi; simp at hi
  | cons e rest ih =>
    intro k m a hwf i hi
    have hwe : wfEntry e := hwf e (by simp)
    have hslen : (serializeRecord e (ptrFn k)).length = 37 :=
      serializeRecord_length e _ hwe.1
    have hsplit : writeBytes m a (serialFrom ptrFn k (e :: rest)) =
        writeBytes (writeBytes m a (serializeRecord e (ptrFn k)))
          (a + 37) (serialFrom ptrFn (k + 1) rest) := by
      show writeBytes m a
          (serializeRecord e (ptrFn k) ++ serialFrom ptrFn (k + 1) rest) = _
      rw [writeBytes_append, hslen]
    rw [hsplit]
    cases i with
    | zero =>
      have harith : a + recordSize * 0 = a := by simp [recordSize]
      rw [harith]
      have hcongr : deserializeRecord
          (writeBytes (writeBytes m a (serializeRecord e (ptrFn k)))
            (a + 37) (serialFrom ptrFn (k + 1) rest)) a =
          deserializeRecord (writeBytes m a (serializeRecord e (ptrFn k))) a := by
        apply deser_congr
        intro j hj
        exact writeBytes_out _ _ (a + 37) (a + j) (by omega)
      rw [hcongr, deser_of_written e _ m a hwe]
      rfl
    | succ j =>
      have harith : a + recordSize * (j + 1) = (a + 37) + recordSize * j := by
        simp only [recordSize]
        omega
      rw [harith, ih (k + 1) _ (a + 37) (fun x hx => hwf x (by simp [hx])) j
        (by simp at hi; omega)]
      rfl

/-- Concrete entries and EEPROM states used by counterexamples and
witnesses. -/
def eSaveA : TaskEntry := ⟨List.replicate 32 65, 0, 1⟩

/-- Second concrete entry, with a different priority byte. -/
def eSaveB : TaskEntry := ⟨List.replicate 32 66, 0, 9⟩

/-- The power-on EEPROM model: zeroed memory, cursor at 0. -/
def eeZero : EEState := ⟨fun _ => 0, 0⟩

/-- A concrete record used for the serialization counterexample. -/
def eRec : TaskEntry := ⟨List.replicate 32 65, 7, 2⟩

/-- A concrete queue of exactly `MAX_LOGS` well-formed entries. -/
def roundQ : List TaskEntry :=
  (List.range 10).map (fun k => ⟨List.replicate 32 (65 + k), k, k⟩)

/-- Claim C7: `load_logs_from_eeprom` resets the cursor to 0 and reads
exactly `MAX_LOGS` fixed-size records at addresses 0, 37, …, regardless
of the prior store content and of how many records were actually saved,
prepending each to the current queue (so the loaded block lands reversed
in front of the untouched existing queue) and leaving the cursor at
`MAX_LOGS × recordSize`. -/
theorem claimC7 (st : EEState) (q : List TaskEntry) :
    loadLogs st q =
      (((List.range MAX_LOGS).map (fun i =>
          deserializeRecord st.mem (recordSize * i))).reverse ++ q,
       ⟨st.mem, recordSize * MAX_LOGS⟩) := by
  show loadGo MAX_LOGS ⟨st.mem, 0⟩ q = _
  rw [loadGo_char MAX_LOGS st.mem 0 q (by decide)]
  have hfun : (fun i => deserializeRecord st.mem (0 + recordSize * i)) =
      (fun i => deserializeRecord st.mem (recordSize * i)) := by
    funext i
    rw [Nat.zero_add]
  rw [hfun, Nat.zero_add]

/-- Claim C6 counterexample: two consecutive saves. The global cursor is
not reset by `save_logs_to_eeprom`, so the second call writes its record
at address 37, not at address 0: byte 34 (the priority byte of the
record at address 0) still holds the first entry's priority 1, not the
second entry's 9, which instead appears at byte 71 = 37 + 34, and the
cursor ends at 74. -/
theorem claimC6_cex :
    (saveLogs [eSaveB] (fun _ => 0)
        (saveLogs [eSaveA] (fun _ => 0) eeZero)).mem 34 = 1 ∧
    eSaveB.priority = 9 ∧
    (saveLogs [eSaveB] (fun _ => 0)
        (saveLogs [eSaveA] (fun _ => 0) eeZero)).mem 34 ≠ eSaveB.priority ∧
    (saveLogs [eSaveB] (fun _ => 0)
        (saveLogs [eSaveA] (fun _ => 0) eeZero)).mem 71 = 9 ∧
    (saveLogs [eSaveB] (fun _ => 0)
        (saveLogs [eSaveA] (fun _ => 0) eeZero)).addr = 74 :=
  ⟨by decide, rfl, by decide, by decide, by decide⟩

/-- Claim C6 amended: every call of `save_logs_to_eeprom` walks the
queue front to back and writes the fixed-size records contiguously at
successive addresses starting from the CURRENT cursor (0 at power-on;
the cursor is not reset by save itself), advancing the cursor by the
record size per entry, so the bytes written total
(entry count × record size). -/
theorem claimC6_amended (Q : List TaskEntry) (ptrFn : Nat → Nat) (st : EEState)
    (hb : st.addr + recordSize * Q.length < 65536)
    (hwf : ∀ e ∈ Q, e.data.length = 32) :
    saveLogs Q ptrFn st =
      ⟨writeBytes st.mem st.addr (serialFrom ptrFn 0 Q),
       (st.addr + recordSize * Q.length) % 65536⟩ ∧
    (serialFrom ptrFn 0 Q).length = recordSize * Q.length :=
  ⟨saveGo_char ptrFn Q 0 st hb hwf, serialFrom_length ptrFn Q 0 hwf⟩

/-- Witness for the amended C6 at a concrete one-entry save. -/
theorem claimC6_witness :
    saveLogs [eSaveA] (fun _ => 0) eeZero =
      ⟨writeBytes eeZero.mem eeZero.addr (serialFrom (fun _ => 0) 0 [eSaveA]),
       (eeZero.addr + recordSize * [eSaveA].length) % 65536⟩ ∧
    (serialFrom (fun _ => 0) 0 [eSaveA]).length = recordSize * [eSaveA].length :=
  claimC6_amended [eSaveA] (fun _ => 0) eeZero (by decide) (by decide)

/-- Claim C3: round-trip. For a queue of exactly `MAX_LOGS` well-formed
entries saved from a fresh cursor (address 0), loading into an initially
empty in-memory queue reproduces the queue's (payload, priority,
delay_ticks) triples in reverse order, because load prepends each
record read. -/
theorem claimC3 (Q : List TaskEntry) (ptrFn : Nat → Nat) (st : EEState)
    (h10 : Q.length = MAX_LOGS) (ha : st.addr = 0)
    (hwf : ∀ e ∈ Q, wfEntry e) :
    (loadLogs (saveLogs Q ptrFn st) []).1 = Q.reverse := by
  obtain ⟨m, a0⟩ := st
  have ha0 : a0 = 0 := ha
  subst ha0
  have hwl : ∀ e ∈ Q, e.data.length = 32 := fun e he => (hwf e he).1
  have hb : (⟨m, 0⟩ : EEState).addr + recordSize * Q.length < 65536 := by
    show 0 + recordSize * Q.length < 65536
    rw [h10]
    decide
  have hsave := saveGo_char ptrFn Q 0 ⟨m, 0⟩ hb hwl
  show (loadLogs (saveGo ptrFn 0 Q ⟨m, 0⟩) []).1 = _
  rw [hsave]
  have hload := loadGo_char MAX_LOGS
    (writeBytes m 0 (serialFrom ptrFn 0 Q)) 0 [] (by decide)
  show (loadGo MAX_LOGS ⟨writeBytes m 0 (serialFrom ptrFn 0 Q), 0⟩ []).1 = _
  rw [hload]
  show ((List.range MAX_LOGS).map (fun i =>
      deserializeRecord (writeBytes m 0 (serialFrom ptrFn 0 Q))
        (0 + recordSize * i))).reverse ++ [] = _
  rw [List.append_nil]
  have hlist : (List.range MAX_LOGS).map (fun i =>
      deserializeRecord (writeBytes m 0 (serialFrom ptrFn 0 Q))
        (0 + recordSize * i)) = Q := by
    apply List.ext_getElem
    · simp [h10]
    · intro i hi1 hi2
      simp only [List.getElem_map, List.getElem_range]
      have hi : i < Q.length := by
        rw [h10]
        simpa using hi1
      rw [records_after_write ptrFn Q 0 m 0 hwf i hi]
      exact getD_lt Q defaultEntry i hi
  rw [hlist]

/-- Witness for C3 at a concrete 10-entry queue saved into the power-on
store. -/
theorem claimC3_witness :
    (loadLogs (saveLogs roundQ (fun _ => 0) eeZero) []).1 = roundQ.reverse :=
  claimC3 roundQ (fun _ => 0) eeZero (by decide) rfl (by decide)

/-- Claim C8 counterexample: the record `save` writes is the whole
in-memory `TaskNode` struct, so it is NOT a function of the three fields
(payload, delay_ticks, priority) alone: two nodes with identical triples
but different raw `next`-pointer values serialize to different byte
records, and the record is 37 bytes — 2 bytes more than the 35 bytes of
the three fields. -/
theorem claimC8_cex :
    serializeRecord eRec 0 ≠ serializeRecord eRec 513 ∧
    (serializeRecord eRec 0).length = 37 :=
  ⟨by decide, by decide⟩

/-- Claim C8 amended: a record saved from cursor 0 occupies bytes 0..36,
laid out contiguously with no header, count field or checksum: bytes
0..31 are the fixed-length payload buffer, bytes 32..33 the 2-byte
little-endian `delay_ticks`, byte 34 the 1-byte priority, and bytes
35..36 the raw 2-byte `next` pointer of the node (dead data: load
overwrites it); nothing outside bytes 0..36 is written and the cursor
advances to 37. -/
theorem claimC8_amended (e : TaskEntry) (ptrFn : Nat → Nat) (st : EEState)
    (ha : st.addr = 0) (hwf : wfEntry e) :
    (∀ i, i < 32 → (saveLogs [e] ptrFn st).mem i = e.data.getD i 0) ∧
    (saveLogs [e] ptrFn st).mem 32 = e.delay_ticks % 256 ∧
    (saveLogs [e] ptrFn st).mem 33 = e.delay_ticks / 256 ∧
    (saveLogs [e] ptrFn st).mem 34 = e.priority ∧
    (saveLogs [e] ptrFn st).mem 35 = ptrFn 0 % 256 ∧
    (saveLogs [e] ptrFn st).mem 36 = ptrFn 0 / 256 % 256 ∧
    (∀ a, 37 ≤ a → (saveLogs [e] ptrFn st).mem a = st.mem a) ∧
    (saveLogs [e] ptrFn st).addr = 37 := by
  obtain ⟨hlen, hbytes, hdel, hpri⟩ := hwf
  obtain ⟨m, a0⟩ := st
  have ha0 : a0 = 0 := ha
  subst ha0
  have hslen : (serializeRecord e (ptrFn 0)).length = 37 :=
    serializeRecord_length e _ hlen
  have hsave : saveLogs [e] ptrFn ⟨m, 0⟩ =
      ⟨writeBytes m 0 (serializeRecord e (ptrFn 0)), (0 + recordSize) % 65536⟩ :=
    rfl
  rw [hsave]
  have hw : ∀ j, j < 37 →
      writeBytes m 0 (serializeRecord e (ptrFn 0)) j =
        (serializeRecord e (ptrFn 0)).getD j 0 % 256 := by
    intro j hj
    have := writeBytes_in (serializeRecord e (ptrFn 0)) m 0 j (by omega)
    simpa using this
  have hsuf : ∀ j, 32 ≤ j → j < 37 →
      (serializeRecord e (ptrFn 0)).getD j 0 =
        [e.delay_ticks % 256, e.delay_ticks / 256 % 256, e.priority % 256,
         ptrFn 0 % 256, ptrFn 0 / 256 % 256].getD (j - 32) 0 := by
    intro j hj1 hj2
    show (e.data ++ _).getD j 0 = _
    rw [getD_append_ge _ _ _ j (by omega), hlen]
  refine ⟨?_, ?_, ?_, ?_, ?_, ?_, ?_, ?_⟩
  · intro i hi
    show writeBytes m 0 (serializeRecord e (ptrFn 0)) i = _
    rw [hw i (by omega)]
    show (e.data ++ _).getD i 0 % 256 = _
    rw [getD_append_lt _ _ _ i (by omega)]
    have hmem : e.data.getD i 0 ∈ e.data := by
      rw [getD_lt _ _ i (by omega)]
      exact List.getElem_mem _
    have := hbytes _ hmem
    omega
  · show writeBytes m 0 (serializeRecord e (ptrFn 0)) 32 = _
    rw [hw 32 (by omega), hsuf 32 (by omega) (by omega)]
    simp only [Nat.sub_self, List.getD_cons_zero]
    omega
  · show writeBytes m 0 (serializeRecord e (ptrFn 0)) 33 = _
    rw [hw 33 (by omega), hsuf 33 (by omega) (by omega)]
    have hj : (33 : Nat) - 32 = 1 := by omega
    rw [hj]
    simp only [List.getD_cons_succ, List.getD_cons_zero]
    omega
  · show writeBytes m 0 (serializeRecord e (ptrFn 0)) 34 = _
    rw [hw 34 (by omega), hsuf 34 (by omega) (by omega)]
    have hj : (34 : Nat) - 32 = 2 := by omega
    rw [hj]
    simp only [List.getD_cons_succ, List.getD_cons_zero]
    omega
  · show writeBytes m 0 (serializeRecord e (ptrFn 0)) 35 = _
    rw [hw 35 (by omega), hsuf 35 (by omega) (by omega)]
    have hj : (35 : Nat) - 32 = 3 := by omega
    rw [hj]
    simp only [List.getD_cons_succ, List.getD_cons_zero]
    omega
  · show writeBytes m 0 (serializeRecord e (ptrFn 0)) 36 = _
    rw [hw 36 (by omega), hsuf 36 (by omega) (by omega)]
    have hj : (36 : Nat) - 32 = 4 := by omega
    rw [hj]
    simp only [List.getD_cons_succ, List.getD_cons_zero]
    omega
  · intro a ha37
    show writeBytes m 0 (serializeRecord e (ptrFn 0)) a = m a
    exact writeBytes_out _ m 0 a (by omega)
  · show (0 + recordSize) % 65536 = 37
    decide

/-- Witness for the amended C8 at a concrete entry with next pointer
0x0201 = 513 (so both pointer bytes are visibly non-zero). -/
theorem claimC8_witness :
    (∀ i, i < 32 → (saveLogs [eRec] (fun _ => 513) eeZero).mem i =
      eRec.data.getD i 0) ∧
    (saveLogs [eRec] (fun _ => 513) eeZero).mem 32 = eRec.delay_ticks % 256 ∧
    (saveLogs [eRec] (fun _ => 513) eeZero).mem 33 = eRec.delay_ticks / 256 ∧
    (saveLogs [eRec] (fun _ => 513) eeZero).mem 34 = eRec.priority ∧
    (saveLogs [eRec] (fun _ => 513) eeZero).mem 35 = (fun _ : Nat => 513) 0 % 256 ∧
    (saveLogs [eRec] (fun _ => 513) eeZero).mem 36 =
      (fun _ : Nat => 513) 0 / 256 % 256 ∧
    (∀ a, 37 ≤ a → (saveLogs [eRec] (fun _ => 513) eeZero).mem a = eeZero.mem a) ∧
    (saveLogs [eRec] (fun _ => 513) eeZero).addr = 37 :=
  claimC8_amended eRec (fun _ => 513) eeZero rfl (by decide)
